import Mathlib

/-!
Verification of the invest-tax trade ledger (matchmaker modules).

Shallow embedding of the Python sources `matchmaker/trade.py`,
`matchmaker/data.py` and `matchmaker/ibkr.py`: pandas DataFrames become
lists of record rows, the hash index becomes an explicit `hash` field,
timestamps become naturals, monetary quantities become rationals, and
NaN / missing values become `Option`.  Each claim of the specification is
then settled against these definitions.
-/

namespace InvestTax

/-! ## Generic first-occurrence deduplication

Models pandas `merged[~merged.index.duplicated(keep='first')]` (dedup by
index key) and `drop_duplicates` (dedup by the whole row, i.e. key = id). -/

def dedupByAux {α κ : Type} [DecidableEq κ] (k : α → κ) (seen : List κ) : List α → List α
  | [] => []
  | a :: rest =>
      if k a ∈ seen then dedupByAux k seen rest
      else a :: dedupByAux k (k a :: seen) rest

def dedupBy {α κ : Type} [DecidableEq κ] (k : α → κ) (l : List α) : List α :=
  dedupByAux k [] l

def seenAfter {α κ : Type} [DecidableEq κ] (k : α → κ) (seen : List κ) : List α → List κ
  | [] => seen
  | a :: rest =>
      if k a ∈ seen then seenAfter k seen rest
      else seenAfter k (k a :: seen) rest

/-! ## Row types for the ledger state (`matchmaker/data.py`, `State`) -/

/-- A row of the hash-indexed trades table: the `Hash` index, the
    `Date/Time` column (as a natural-number timestamp) and an abstract
    payload standing for all the remaining columns. -/
structure MTrade where
  hash : Nat
  date : Nat
  payload : Nat
  deriving DecidableEq

/-- A corporate-action row (`actions` table): `Symbol`, `Date/Time`,
    `Action` and `Ratio` columns. -/
structure ActionRow where
  symbol : String
  date : Nat
  action : String
  ratio : ℚ
  deriving DecidableEq

/-- An open-position snapshot row (`positions` table); deduplicated by
    `(Symbol, Date)` on merge. -/
structure PosRow where
  symbol : String
  date : Nat
  payload : Nat
  deriving DecidableEq

/-- A dividends row. -/
structure DivRow where
  symbol : String
  date : Nat
  payload : Nat
  deriving DecidableEq

/-- A row of the symbols / rename table (`symbols`), indexed by the raw
    symbol, with `Ticker`, nullable `Change Date`, `Currency`, `Manual`. -/
structure SymbolRow where
  symbol : String
  ticker : String
  changeDate : Option Nat
  currency : Option String
  manual : Bool
  deriving DecidableEq

/-- An imports-metadata row (`imports` table). -/
structure ImportRow where
  account : String
  fromDate : Nat
  toDate : Nat
  tradeCount : Nat
  deriving DecidableEq

/-- A matched buy/sell pair; `date` is the pair's date used by pair
    invalidation, `matchedQuantity` the matched lot size. -/
structure LPair where
  openRef : Nat
  closeRef : Nat
  date : Nat
  matchedQuantity : ℚ
  deriving DecidableEq

/-- The application `State` of `matchmaker/data.py`. -/
structure State where
  trades : List MTrade
  actions : List ActionRow
  positions : List PosRow
  dividends : List DivRow
  symbols : List SymbolRow
  imports : List ImportRow
  pairs : List LPair
  deriving DecidableEq

/-! ## Merging (`trade.merge_trades`, `State.merge_with`) -/

/-- `merge_trades(existing, new)` of `matchmaker/trade.py`: if `existing`
    is None return `new`; if `new` is empty return `existing`; else
    concatenate and keep the first occurrence of each hash index. -/
def merge_trades (existing : Option (List MTrade)) (new : List MTrade) : List MTrade :=
  match existing with
  | none => new
  | some e => if new.length = 0 then e else dedupBy MTrade.hash (e ++ new)

/-- `other.trades['Date/Time'].min()`: minimum timestamp of a trades
    table (0 on an empty table; `merge_with` only uses it when the
    incoming table is nonempty). -/
def minTradeDate : List MTrade → Nat
  | [] => 0
  | t :: rest => rest.foldl (fun m x => min m x.date) t.date

/-- Modelled from the spec: `pairing.Pairings.invalidate_pairs` (the file
    `matchmaker/pairing.py` is not among the provided sources).  Per the
    spec, all Pairs dated at or after the cutoff timestamp are invalidated
    (discarded, to be recomputed), never incrementally patched. -/
def invalidate_pairs (cutoff : Nat) (pairs : List LPair) : List LPair :=
  pairs.filter fun p => decide (p.date < cutoff)

/-- `State.merge_with(self, other, drop_pairings)` of
    `matchmaker/data.py`: returns the merged state and the number of new
    trades.  Note the argument order of the `merge_trades` call: the
    incoming `other.trades` is passed as the first (`existing`) argument. -/
def mergeWith (self other : State) (dropPairings : Bool) : State × Int :=
  let imports := dedupBy id (self.imports ++ other.imports)
  let actions := if other.actions.length > 0 then other.actions ++ self.actions else self.actions
  let positions := dedupBy (fun p : PosRow => (p.symbol, p.date)) (other.positions ++ self.positions)
  let before := self.trades.length
  let trades := merge_trades (some other.trades) self.trades
  let dividends := dedupBy id (self.dividends ++ other.dividends)
  let symbols := self.symbols ++ other.symbols
  let importedCount : Int := (trades.length : Int) - (before : Int)
  let pairs :=
    if importedCount > 0 ∧ dropPairings then
      invalidate_pairs (minTradeDate other.trades) self.pairs
    else if ¬dropPairings then other.pairs
    else self.pairs
  (⟨trades, actions, positions, dividends, symbols, imports, pairs⟩, importedCount)

/-- Example ledger states used as concrete inputs for the merge claims. -/
def exStateA : State := ⟨[⟨1, 5, 10⟩], [], [], [], [], [], []⟩

def exStateB : State :=
  ⟨[⟨2, 7, 20⟩], [⟨"AAPL", 3, "Split", (1 : ℚ)/2⟩], [], [], [], [], []⟩

/-- Ledgers holding two different payloads under the same trade hash. -/
def exCollideA : State := ⟨[⟨1, 5, 10⟩], [], [], [], [], [], []⟩

def exCollideB : State := ⟨[⟨1, 5, 99⟩], [], [], [], [], [], []⟩


/-! ## Split adjustment (`trade.add_split_data`, `trade.adjust_for_splits`)

A trade row carries the original (`Orig. Quantity`, `Orig. T. Price`) and
current (`Quantity`, `T. Price`) columns plus the nullable `Split Ratio`
column (`none` models NaN / a column that was never populated). -/

structure TradeRow where
  symbol : String
  date : Nat
  origQuantity : ℚ
  origPrice : ℚ
  quantity : ℚ
  price : ℚ
  splitRatio : Option ℚ
  deriving DecidableEq

/-- Insertion step of the ascending `sort_values(by='Date/Time')`. -/
def insertByDate (a : ActionRow) : List ActionRow → List ActionRow
  | [] => [a]
  | b :: rest => if a.date ≤ b.date then a :: b :: rest else b :: insertByDate a rest

/-- `split_actions.sort_values(by='Date/Time', ascending=True)`. -/
def sortByDate : List ActionRow → List ActionRow
  | [] => []
  | a :: rest => insertByDate a (sortByDate rest)

/-- Current running product for a symbol in the accumulator (1 before the
    symbol's first split), as used by `groupby('Symbol')['Ratio'].cumprod()`. -/
def lookupRatio (acc : List (String × ℚ)) (s : String) : ℚ :=
  match acc.find? (fun p => p.1 == s) with
  | some p => p.2
  | none => 1

/-- `split_actions['Cumulative Ratio'] = split_actions.groupby('Symbol')['Ratio'].cumprod()`:
    pair every (time-sorted) split row with its per-symbol running product. -/
def cumRatiosAux (acc : List (String × ℚ)) : List ActionRow → List (ActionRow × ℚ)
  | [] => []
  | a :: rest =>
      let c := lookupRatio acc a.symbol * a.ratio
      (a, c) :: cumRatiosAux ((a.symbol, c) :: acc) rest

def cumRatios (l : List ActionRow) : List (ActionRow × ℚ) := cumRatiosAux [] l

/-- `split_actions[(Symbol == row.Symbol) & (Date/Time > row.Date/Time)]['Cumulative Ratio'].min()`. -/
def minLaterCum (cums : List (ActionRow × ℚ)) (sym : String) (d : Nat) : Option ℚ :=
  ((cums.filter fun p => p.1.symbol == sym && decide (d < p.1.date)).map fun p => p.2).min?

/-- `1 / min(...)` followed by `fillna(1.0)` (the selection being empty
    yields NaN, which is filled with 1.0). -/
def ratioOfMin (m : Option ℚ) : ℚ :=
  match m with
  | none => 1
  | some v => 1 / v

/-- `trade.add_split_data(target, split_actions)`: set `Split Ratio` to 1.0,
    then — when there are Split actions — overwrite it for every row with
    the reciprocal of the minimum later cumulative ratio for its symbol. -/
def add_split_data (target : List TradeRow) (split_actions : Option (List ActionRow)) :
    List TradeRow :=
  let target1 := target.map fun t => { t with splitRatio := some 1 }
  match split_actions with
  | none => target1
  | some acts =>
      if acts.isEmpty then target1
      else
        let splits := acts.filter fun a => a.action == "Split"
        if splits.isEmpty then target1
        else
          let cums := cumRatios (sortByDate splits)
          target1.map fun t =>
            { t with splitRatio := some (ratioOfMin (minLaterCum cums t.symbol t.date)) }

/-- `trade.adjust_for_splits(trades, split_actions)`: with a None or empty
    action table the rows are returned unchanged (the `Split Ratio` column
    is merely created as NaN when absent); otherwise `add_split_data` runs
    and then `Quantity = Orig. Quantity * Split Ratio`,
    `T. Price = Orig. T. Price / Split Ratio`. -/
def adjust_for_splits (trades : List TradeRow) (split_actions : Option (List ActionRow)) :
    List TradeRow :=
  match split_actions with
  | none => trades
  | some acts =>
      if acts.isEmpty then trades
      else
        (add_split_data trades (some acts)).map fun t =>
          match t.splitRatio with
          | some r => { t with quantity := t.origQuantity * r, price := t.origPrice / r }
          | none => t

/-- Per-symbol product of ratios over a list of already-processed rows —
    the specification's reading of the running product ("cumulated in
    ascending time order"). -/
def prefixRatio (l : List ActionRow) (s : String) : ℚ :=
  (l.filter fun a => a.symbol == s).foldl (fun acc a => acc * a.ratio) 1

/-- Specification-level cumulative ratios: each row of the (time-sorted)
    split list paired with the product of the ratios of the same-symbol
    rows up to and including it. -/
def specCumsAux : List ActionRow → List ActionRow → List (ActionRow × ℚ)
  | _, [] => []
  | pre, a :: rest => (a, prefixRatio (pre ++ [a]) a.symbol) :: specCumsAux (pre ++ [a]) rest

def specCums (l : List ActionRow) : List (ActionRow × ℚ) := specCumsAux [] l

/-- The specification's split ratio for a trade of symbol `sym` dated `d`:
    1 divided by the minimum per-symbol running product of Split ratios
    among Split actions for `sym` dated strictly after `d` (1.0 when no
    later split exists). -/
def specSplitRatio (acts : List ActionRow) (sym : String) (d : Nat) : ℚ :=
  ratioOfMin (minLaterCum (specCums (sortByDate (acts.filter fun a => a.action == "Split"))) sym d)

/-- The specification's row transform: `splitRatio` set, then
    `quantity = origQuantity * splitRatio`, `price = origPrice / splitRatio`. -/
def specAdjustRow (acts : List ActionRow) (t : TradeRow) : TradeRow :=
  let r := specSplitRatio acts t.symbol t.date
  { t with splitRatio := some r, quantity := t.origQuantity * r, price := t.origPrice / r }

/-- A stale trade row (its `quantity` differs from `origQuantity` and its
    split ratio was never populated), used against the empty action set. -/
def exStaleTrade : TradeRow := ⟨"AAPL", 5, 10, 100, 7, 3, none⟩

/-- A fresh trade row dated before the example split. -/
def exSplitTrade : TradeRow := ⟨"AAPL", 5, 10, 100, 10, 100, none⟩

/-- A Split action carrying the ratio 2 — the "new/old multiplier" of the
    claim — dated after `exSplitTrade`. -/
def exActionNewOld : ActionRow := ⟨"AAPL", 10, "Split", 2⟩

/-- The same split carrying the ratio the parser actually produces for
    'Split 2 for 1', namely old/new = 1/2. -/
def exActionOldNew : ActionRow := ⟨"AAPL", 10, "Split", (1 : ℚ)/2⟩

/-! ## Corporate-action description parsing (`ibkr.py`)

Character-level models of the regular expressions used by
`import_corporate_actions`.  `\w` is modelled as ASCII alphanumeric or
underscore. -/

def isWordChar (c : Char) : Bool := c.isAlphanum || c == '_'

def isWordDotChar (c : Char) : Bool := isWordChar c || c == '.'

def isSpaceChar (c : Char) : Bool := c == ' ' || c == '\t' || c == '\n' || c == '\r'

/-- Maximal run of characters satisfying `p` (a greedy `X+` whose class
    excludes the character that must follow). -/
def takeRun (p : Char → Bool) : List Char → List Char × List Char
  | [] => ([], [])
  | c :: rest =>
      if p c then
        let (r, rest') := takeRun p rest
        (c :: r, rest')
      else ([], c :: rest)

/-- Case-insensitive literal match (the regexes use `re.IGNORECASE`);
    returns the rest of the input on success. -/
def matchLitCI : List Char → List Char → Option (List Char)
  | [], cs => some cs
  | _ :: _, [] => none
  | l :: ls, c :: cs => if l.toLower == c.toLower then matchLitCI ls cs else none

def digitsVal (cs : List Char) : Nat :=
  cs.foldl (fun a c => a * 10 + (c.toNat - 48)) 0

/-- Substring containment, modelling Python's `'Dividend' in text`. -/
def containsSub (pat : List Char) : List Char → Bool
  | [] => pat.isEmpty
  | c :: rest => pat.isPrefixOf (c :: rest) || containsSub pat rest

/-- The result quadruple `(action, symbol, ratio, target)` of the
    `parse_*_text` helpers of `import_corporate_actions`. -/
structure ActionParse where
  action : Option String
  symbol : Option String
  ratio : Option ℚ
  target : Option String
  deriving DecidableEq

def noParse : ActionParse := ⟨none, none, none, none⟩

/-- Matcher for `([\w\.]+)\(\w+\) Split (\d+) for (\d+)` at one position. -/
def matchSplitAt (cs : List Char) : Option (String × ℚ) :=
  let (sym, r1) := takeRun isWordDotChar cs
  if sym.isEmpty then none else
  match r1 with
  | '(' :: r2 =>
      let (code, r3) := takeRun isWordChar r2
      if code.isEmpty then none else
      match r3 with
      | ')' :: r4 =>
          match matchLitCI (" Split ".toList) r4 with
          | none => none
          | some r5 =>
              let (n, r6) := takeRun Char.isDigit r5
              if n.isEmpty then none else
              match matchLitCI (" for ".toList) r6 with
              | none => none
              | some r7 =>
                  let (m, _) := takeRun Char.isDigit r7
                  if m.isEmpty then none
                  else some (String.mk sym, (digitsVal m : ℚ) / (digitsVal n : ℚ))
      | _ => none
  | _ => none

/-- `re.search`: try the split pattern at every start position. -/
def searchSplit : List Char → Option (String × ℚ)
  | [] => none
  | c :: rest =>
      match matchSplitAt (c :: rest) with
      | some r => some r
      | none => searchSplit rest

/-- `parse_split_text` of `ibkr.py`: on a match of
    `([\w\.]+)\(\w+\) Split (\d+) for (\d+)` the ratio is
    `float(group(3)) / float(group(2))`, i.e. old-count / new-count. -/
def parse_split_text (text : String) : ActionParse :=
  match searchSplit text.toList with
  | some (sym, ratio) => ⟨some "Split", some sym, some ratio, none⟩
  | none => noParse

/-- Matcher for `^(\w+)\(\w+\) Spinoff\s+(\d+) for (\d+) \((\w+),.+\)`
    (anchored at the start); yields `('Spinoff', group(4), g2/g3, None)`. -/
def parse_spinoff_text (text : String) : ActionParse :=
  let cs := text.toList
  let (sym, r1) := takeRun isWordChar cs
  if sym.isEmpty then noParse else
  match r1 with
  | '(' :: r2 =>
      let (code, r3) := takeRun isWordChar r2
      if code.isEmpty then noParse else
      match r3 with
      | ')' :: r4 =>
          match matchLitCI (" Spinoff".toList) r4 with
          | none => noParse
          | some r5 =>
              let (sp, r6) := takeRun isSpaceChar r5
              if sp.isEmpty then noParse else
              let (n, r7) := takeRun Char.isDigit r6
              if n.isEmpty then noParse else
              match matchLitCI (" for ".toList) r7 with
              | none => noParse
              | some r8 =>
                  let (m, r9) := takeRun Char.isDigit r8
                  if m.isEmpty then noParse else
                  match matchLitCI (" (".toList) r9 with
                  | none => noParse
                  | some r10 =>
                      let (tsym, r11) := takeRun isWordChar r10
                      if tsym.isEmpty then noParse else
                      match r11 with
                      | ',' :: r12 =>
                          if (r12.drop 1).contains ')' then
                            ⟨some "Spinoff", some (String.mk tsym),
                              some ((digitsVal n : ℚ) / (digitsVal m : ℚ)), none⟩
                          else noParse
                      | _ => noParse
      | _ => noParse
  | _ => noParse

/-- Matcher for
    `^(\w+)\(\w+\) Merged\(Acquisition\) FOR (\w+) (\d+\.\d+) PER SHARE`. -/
def matchAcqFor (cs : List Char) : Option ActionParse :=
  let (sym, r1) := takeRun isWordChar cs
  if sym.isEmpty then none else
  match r1 with
  | '(' :: r2 =>
      let (code, r3) := takeRun isWordChar r2
      if code.isEmpty then none else
      match r3 with
      | ')' :: r4 =>
          match matchLitCI (" Merged(Acquisition) FOR ".toList) r4 with
          | none => none
          | some r5 =>
              let (cur, r6) := takeRun isWordChar r5
              if cur.isEmpty then none else
              match r6 with
              | ' ' :: r7 =>
                  let (ip, r8) := takeRun Char.isDigit r7
                  if ip.isEmpty then none else
                  match r8 with
                  | '.' :: r9 =>
                      let (fp, r10) := takeRun Char.isDigit r9
                      if fp.isEmpty then none else
                      match matchLitCI (" PER SHARE".toList) r10 with
                      | none => none
                      | some _ =>
                          some ⟨some "Acquisition", some (String.mk sym),
                            some ((digitsVal ip : ℚ) +
                              (digitsVal fp : ℚ) / ((10 : ℚ) ^ fp.length)), none⟩
                  | _ => none
              | _ => none
      | _ => none
  | _ => none

/-- Matcher for
    `^(\w+)\(\w+\) Merged\(Acquisition\) WITH (\w+) (\d+) for (\d+) \((\w+),`;
    yields `('Acquisition', group(5), g4/g3, group(1))`. -/
def matchAcqWith (cs : List Char) : Option ActionParse :=
  let (sym, r1) := takeRun isWordChar cs
  if sym.isEmpty then none else
  match r1 with
  | '(' :: r2 =>
      let (code, r3) := takeRun isWordChar r2
      if code.isEmpty then none else
      match r3 with
      | ')' :: r4 =>
          match matchLitCI (" Merged(Acquisition) WITH ".toList) r4 with
          | none => none
          | some r5 =>
              let (wsym, r6) := takeRun isWordChar r5
              if wsym.isEmpty then none else
              match r6 with
              | ' ' :: r7 =>
                  let (n, r8) := takeRun Char.isDigit r7
                  if n.isEmpty then none else
                  match matchLitCI (" for ".toList) r8 with
                  | none => none
                  | some r9 =>
                      let (m, r10) := takeRun Char.isDigit r9
                      if m.isEmpty then none else
                      match matchLitCI (" (".toList) r10 with
                      | none => none
                      | some r11 =>
                          let (tsym, r12) := takeRun isWordChar r11
                          if tsym.isEmpty then none else
                          match r12 with
                          | ',' :: _ =>
                              some ⟨some "Acquisition", some (String.mk tsym),
                                some ((digitsVal m : ℚ) / (digitsVal n : ℚ)),
                                some (String.mk sym)⟩
                          | _ => none
              | _ => none
      | _ => none
  | _ => none

/-- `parse_acquisition_text` of `ibkr.py`: try the cash form, then the
    stock-conversion form. -/
def parse_acquisition_text (text : String) : ActionParse :=
  match matchAcqFor text.toList with
  | some r => r
  | none =>
      match matchAcqWith text.toList with
      | some r => r
      | none => noParse

/-- Matcher for the fallback `^(\w+)\(\w+\)`. -/
def matchSymCode (cs : List Char) : Option String :=
  let (sym, r1) := takeRun isWordChar cs
  if sym.isEmpty then none else
  match r1 with
  | '(' :: r2 =>
      let (code, r3) := takeRun isWordChar r2
      if code.isEmpty then none else
      match r3 with
      | ')' :: _ => some (String.mk sym)
      | _ => none
  | _ => none

/-- `parse_action_text` of `ibkr.py`: split, spinoff, acquisition, the
    `^(\w+)\(\w+\)` fallback (action 'Unknown' with ratio 0.0), the
    'Dividend' substring fallback, and finally 'Unknown' throughout —
    never an error. -/
def parse_action_text (text : String) : ActionParse :=
  match parse_split_text text with
  | ⟨some a, s, r, t⟩ => ⟨some a, s, r, t⟩
  | ⟨none, _, _, _⟩ =>
  match parse_spinoff_text text with
  | ⟨some a, s, r, t⟩ => ⟨some a, s, r, t⟩
  | ⟨none, _, _, _⟩ =>
  match parse_acquisition_text text with
  | ⟨some a, s, r, t⟩ => ⟨some a, s, r, t⟩
  | ⟨none, _, _, _⟩ =>
  match matchSymCode text.toList with
  | some sym => ⟨some "Unknown", some sym, some 0, none⟩
  | none =>
  if containsSub ("Dividend".toList) text.toList then ⟨some "Dividend", none, none, none⟩
  else ⟨some "Unknown", none, none, none⟩

/-! ## Position reconciliation queries (`trade.py`) -/

/-- A trade row as seen by the data-quality queries: the `Type`, `Action`
    and `Accumulated Quantity` columns (plus identifying columns). -/
structure PTrade where
  symbol : String
  date : Nat
  quantity : ℚ
  accumulatedQuantity : ℚ
  ttype : String
  action : String
  deriving DecidableEq

/-- `trade.positions_with_missing_transactions(trades)`:
    rows with (Accumulated Quantity < 0 and Type == 'Long' and
    Action == 'Close') or (Accumulated Quantity > 0 and Type == 'Short'
    and Action == 'Close').  A pure filter — the input is not mutated. -/
def positions_with_missing_transactions (trades : List PTrade) : List PTrade :=
  trades.filter fun t =>
    (decide (t.accumulatedQuantity < 0) && (t.ttype == "Long") && (t.action == "Close")) ||
    (decide (t.accumulatedQuantity > 0) && (t.ttype == "Short") && (t.action == "Close"))

/-- An impossible Close/Long trade used as a concrete query input. -/
def exImpossible : PTrade := ⟨"AAPL", 5, -10, -3, "Long", "Close"⟩

/-- A transfer row as seen by `transfers_with_missing_transactions`:
    `Display Name`, `Account`, `Target`, `Action`, `Type`, `Quantity`. -/
structure XferRow where
  displayName : String
  account : String
  target : String
  action : String
  ttype : String
  quantity : ℚ
  deriving DecidableEq

/-- The query's transfer selection:
    `trades[(Action == 'Transfer') & (Type != 'Spinoff')]`. -/
def transfersOf (trades : List XferRow) : List XferRow :=
  trades.filter fun r => r.action == "Transfer" && !(r.ttype == "Spinoff")

/-- One step of `groupby(...)['Quantity'].sum()`: add `q` to the group of
    key `key` (or open the group). -/
def addToGroup (key : String × String) (q : ℚ) :
    List ((String × String) × ℚ) → List ((String × String) × ℚ)
  | [] => [(key, q)]
  | (k, v) :: rest =>
      if k = key then (k, v + q) :: rest else (k, v) :: addToGroup key q rest

/-- `groupby([...])['Quantity'].sum()` over transfer rows. -/
def groupSum (key : XferRow → String × String) (rows : List XferRow) :
    List ((String × String) × ℚ) :=
  rows.foldl (fun acc r => addToGroup (key r) r.quantity acc) []

def lookupSeries (t : List ((String × String) × ℚ)) (k : String × String) : ℚ :=
  match t.find? fun p => decide (p.1 = k) with
  | some p => p.2
  | none => 0

def containsKey (s : List ((String × String) × ℚ)) (k : String × String) : Bool :=
  s.any fun p => decide (p.1 = k)

/-- `Series.add(other, fill_value=0)`: align the two keyed series, summing
    values on common keys and filling the missing side with 0. -/
def addSeries (s t : List ((String × String) × ℚ)) : List ((String × String) × ℚ) :=
  (s.map fun p => (p.1, p.2 + lookupSeries t p.1)) ++ t.filter fun p => !containsKey s p.1

/-- `trade.transfers_with_missing_transactions(trades)`: when the trades
    table has no `Target` column it returns a single empty DataFrame
    (modelled as `none`); when it has one it returns the pair
    (unmatched incoming, unmatched outgoing) of strictly signed group
    residuals. -/
def transfers_with_missing_transactions (hasTargetCol : Bool) (trades : List XferRow) :
    Option (List ((String × String) × ℚ) × List ((String × String) × ℚ)) :=
  let transfers := transfersOf trades
  let outgoing := transfers.filter fun r => r.ttype == "Out"
  if hasTargetCol then
    let incoming := transfers.filter fun r => r.ttype == "In"
    let incomingByAccount := groupSum (fun r => (r.displayName, r.account)) incoming
    let outgoingByTarget := groupSum (fun r => (r.displayName, r.target)) outgoing
    let unmatchedOutgoing := (addSeries outgoingByTarget incomingByAccount).filter
      fun p => decide (p.2 < 0)
    let incomingByTarget := groupSum (fun r => (r.displayName, r.target)) incoming
    let outgoingByAccount := groupSum (fun r => (r.displayName, r.account)) outgoing
    let unmatchedIncoming := (addSeries incomingByTarget outgoingByAccount).filter
      fun p => decide (0 < p.2)
    some (unmatchedIncoming, unmatchedOutgoing)
  else none

/-- A lone outgoing transfer with no matching incoming side. -/
def exLoneOutgoing : XferRow := ⟨"AAPL", "U1", "U2", "Transfer", "Out", -5⟩

/-! ## Symbol renames (`State.apply_renames`, `State.detect_and_apply_renames`) -/

/-- Generic insertion sort by a Boolean comparison, modelling
    `sort_values`. -/
def insertBy {α : Type} (le : α → α → Bool) (a : α) : List α → List α
  | [] => [a]
  | b :: rest => if le a b then a :: b :: rest else b :: insertBy le a rest

def sortBy {α : Type} (le : α → α → Bool) : List α → List α
  | [] => []
  | a :: rest => insertBy le a (sortBy le rest)

/-- Comparison on nullable change dates with `na_position='last'`:
    non-null dates ascending, null sorting after everything. -/
def keyLE : Option Nat → Option Nat → Bool
  | none, none => true
  | none, some _ => false
  | some _, none => true
  | some a, some b => decide (a ≤ b)

/-- `sort_values(by=['Change Date', 'Symbol'], na_position='last')`. -/
def symLE (r1 r2 : SymbolRow) : Bool :=
  match r1.changeDate, r2.changeDate with
  | none, none => decide (r1.symbol ≤ r2.symbol)
  | none, some _ => false
  | some _, none => true
  | some a, some b => if a = b then decide (r1.symbol ≤ r2.symbol) else decide (a ≤ b)

/-- A row being renamed (trade / position / dividend): its raw symbol,
    its date, the `Ticker` result column, and the `Manual` flag (trades
    only; positions and dividends behave like non-manual rows). -/
structure RTrade where
  symbol : String
  date : Nat
  ticker : Option String
  manual : Bool
  payload : Nat
  deriving DecidableEq

/-- The symbol rows considered for a row of raw symbol `s` dated `d`:
    `(symbols.index == s) & (Change Date isna | Change Date >= d)`. -/
def renameCandidates (symbols : List SymbolRow) (s : String) (d : Nat) : List SymbolRow :=
  symbols.filter fun r => r.symbol == s &&
    (match r.changeDate with
     | none => true
     | some cd => decide (d ≤ cd))

/-- The ticker lookup of `rename_symbols` (inside `State.apply_renames`):
    sort the candidates by change date (nulls last) and take the first
    row's `Ticker`.  An empty candidate list makes the Python `.iloc[0]`
    raise, modelled as `none`. -/
def resolveTicker (symbols : List SymbolRow) (s : String) (d : Nat) : Option String :=
  match sortBy (fun a b => keyLE a.changeDate b.changeDate) (renameCandidates symbols s d) with
  | [] => none
  | e :: _ => some e.ticker

/-- `rename_symbols(df, date_column)`: set every row's `Ticker` from the
    symbols table. -/
def rename_symbols (symbols : List SymbolRow) (rows : List RTrade) : List RTrade :=
  rows.map fun r => { r with ticker := resolveTicker symbols r.symbol r.date }

/-- `State.apply_renames` on the trades table: manual trades keep their
    ticker; non-manual trades are renamed, and the two parts are
    re-concatenated (renamed first). -/
def apply_renames_trades (symbols : List SymbolRow) (trades : List RTrade) : List RTrade :=
  let manualTrades := trades.filter fun t => t.manual
  let importedTrades := rename_symbols symbols (trades.filter fun t => !t.manual)
  importedTrades ++ manualTrades

/-- `kept_symbols.groupby('Symbol')['Currency'].first()` (a missing key,
    which would raise in Python, is modelled as `none`). -/
def currencyLookup (kept : List SymbolRow) (s : String) : Option String :=
  match kept.find? fun r => r.symbol == s with
  | some r => r.currency
  | none => none

/-- The comparison key of the `drop_duplicates()` call in
    `detect_and_apply_renames`: the concatenated frame is indexed by the
    raw `Symbol`, and pandas' `drop_duplicates` ignores the index — only
    the `Ticker`, `Change Date`, `Currency` and `Manual` columns are
    compared, so two rows of different raw symbols with equal column
    values count as duplicates. -/
def symCols (r : SymbolRow) : String × Option Nat × Option String × Bool :=
  (r.ticker, r.changeDate, r.currency, r.manual)

/-- The symbols-table update of `State.detect_and_apply_renames`: keep
    the rows with a null change date or a manual flag, append the
    rename-history rows restricted to known symbols (marked non-manual,
    with the currency propagated from the kept rows), drop duplicates
    keyed on the columns only (`symCols`), and resort by
    (change date, symbol) with nulls last. -/
def update_symbols (symbols renames : List SymbolRow) : List SymbolRow :=
  let kept := symbols.filter fun r => r.changeDate.isNone || r.manual
  let active := renames.filter fun r => symbols.any fun s => s.symbol == r.symbol
  let activeAdjusted := active.map fun r =>
    { r with manual := false, currency := currencyLookup kept r.symbol }
  sortBy symLE (dedupBy symCols (kept ++ activeAdjusted))

/-- Rename-history fixture: the original FB entry (null change date) and
    the META rename effective until date 100. -/
def exRenameOld : SymbolRow := ⟨"FB", "FB", none, some "USD", false⟩

def exRenameNew : SymbolRow := ⟨"FB", "META", some 100, some "USD", false⟩

def exManualSym : SymbolRow := ⟨"TSLA", "XTSLA", none, some "USD", true⟩

/-! ## Numeric coercion (`trade.convert_trade_columns`)

`pd.to_numeric(errors='coerce')` is modelled as a plain decimal parser
over `[-]digits[.digits]`; an unparsable string becomes the
missing-value marker `none` (NaN). -/

/-- Syntactic shape of a parsable decimal, written as a recursive state
    machine (first a digit, then digits until an optional fraction part). -/
def numTail : List Char → Bool
  | [] => true
  | c :: rest =>
      if c == '.' then !rest.isEmpty && rest.all Char.isDigit
      else c.isDigit && numTail rest

def numCore : List Char → Bool
  | [] => false
  | c :: rest => c.isDigit && numTail rest

def isNumericLit (s : String) : Bool :=
  match s.toList with
  | [] => numCore []
  | c :: rest => if c == '-' then numCore rest else numCore (c :: rest)

/-- The check applied to what follows the integer digits: nothing, or a
    dot and a nonempty run of digits. -/
def fracOk : List Char → Bool
  | [] => true
  | c :: fp => c == '.' && !fp.isEmpty && fp.all Char.isDigit

/-- Parse an unsigned decimal: integer digits, optionally '.' and
    fraction digits; anything else yields `none`. -/
def parseUnsigned (cs : List Char) : Option ℚ :=
  let ip := (takeRun Char.isDigit cs).1
  let rest := (takeRun Char.isDigit cs).2
  if ip.isEmpty then none else
  match rest with
  | [] => some (digitsVal ip)
  | c :: fp =>
      if c == '.' && !fp.isEmpty && fp.all Char.isDigit then
        some ((digitsVal ip : ℚ) + (digitsVal fp : ℚ) / ((10 : ℚ) ^ fp.length))
      else none

def parseNum (s : String) : Option ℚ :=
  match s.toList with
  | [] => parseUnsigned []
  | c :: rest =>
      if c == '-' then (parseUnsigned rest).map fun q => -q
      else parseUnsigned (c :: rest)

/-- The raw string-valued numeric columns of an imported trades row. -/
structure RawTradeRow where
  quantity : String
  proceeds : String
  commFee : String
  basis : String
  realizedPL : String
  mtmPL : String
  tPrice : String
  cPrice : String
  deriving DecidableEq

/-- The coerced numeric columns; `none` is the missing-value marker. -/
structure NumTradeRow where
  quantity : Option ℚ
  proceeds : Option ℚ
  commFee : Option ℚ
  basis : Option ℚ
  realizedPL : Option ℚ
  mtmPL : Option ℚ
  tPrice : Option ℚ
  cPrice : Option ℚ
  deriving DecidableEq

/-- The numeric part of `trade.convert_trade_columns`: every numeric
    column goes through `pd.to_numeric(errors='coerce')` — a total
    function, never an exception.  (The `Date/Time` conversion and the
    Action/Type derivation are outside this claim's scope.) -/
def convert_trade_columns (r : RawTradeRow) : NumTradeRow :=
  ⟨parseNum r.quantity, parseNum r.proceeds, parseNum r.commFee, parseNum r.basis,
   parseNum r.realizedPL, parseNum r.mtmPL, parseNum r.tPrice, parseNum r.cPrice⟩

/-- A raw row whose numeric fields are all unparsable text. -/
def exBadRow : RawTradeRow := ⟨"abc", "x", "-", "1.2.3", "--5", "4a", "12a34", "N/A"⟩

/-! ## Lot matching (spec-modelled) -/

/-- An open lot of the lot-matching working set: a reference to the
    opening trade, its remaining quantity, price and timestamp. -/
structure Lot where
  ref : Nat
  remaining : ℚ
  price : ℚ
  time : Nat
  deriving DecidableEq

/-- The close trade being matched: its reference, date and signed
    quantity. -/
structure CloseLike where
  ref : Nat
  date : Nat
  quantity : ℚ
  deriving DecidableEq

/-- Modelled from the spec: the per-close lot-matching loop of §4.6 (the
    engine's source, `matchmaker/pairing.py`, is not among the provided
    sources).  On a Close trade of unsigned quantity `q`, repeatedly
    select an open lot with positive remaining quantity per the
    strategy's `pick` function; the match quantity is
    `min(q, lot.remainingQuantity)`; both `q` and the lot's remaining
    quantity are decremented and one Pair is emitted per match; the loop
    stops when `q` is exhausted or no selectable lot remains, and the
    residual `q` is the Close trade's uncovered quantity — no synthetic
    lot is fabricated. -/
def pickedLot (pick : List Lot → Option Nat) (lots : List Lot) : Option (Nat × Lot) :=
  match pick lots with
  | none => none
  | some i =>
      match lots[i]? with
      | none => none
      | some lot => some (i, lot)

def matchCloseLoop (pick : List Lot → Option Nat) :
    Nat → List Lot → ℚ → CloseLike → List LPair × List Lot × ℚ
  | 0, lots, q, _ => ([], lots, q)
  | fuel + 1, lots, q, c =>
      if q ≤ 0 then ([], lots, q)
      else
        match pickedLot pick lots with
        | none => ([], lots, q)
        | some (i, lot) =>
            if lot.remaining ≤ 0 then ([], lots, q)
            else
              let m := min q lot.remaining
              let lots' := lots.set i { lot with remaining := lot.remaining - m }
              let res := matchCloseLoop pick fuel lots' (q - m) c
              (⟨lot.ref, c.ref, c.date, m⟩ :: res.1, res.2.1, res.2.2)

/-- Matching one Close trade against the working set: `q` is the
    unsigned close quantity, and one pass per lot suffices as fuel. -/
def matchCloseTrade (pick : List Lot → Option Nat) (lots : List Lot) (c : CloseLike) :
    List LPair × List Lot × ℚ :=
  matchCloseLoop pick lots.length lots |c.quantity| c

/-- `Σ Pair.matchedQuantity`. -/
def pairSum (ps : List LPair) : ℚ := (ps.map fun p => p.matchedQuantity).sum

/-! ## Lemma toolkit -/

theorem mem_seenAfter {α κ : Type} [DecidableEq κ] (k : α → κ) (x : κ) :
    ∀ (l : List α) (seen : List κ), x ∈ seenAfter k seen l ↔ x ∈ seen ∨ x ∈ l.map k := by
  intro l
  induction l with
  | nil => intro seen; simp [seenAfter]
  | cons a rest ih =>
      intro seen
      by_cases h : k a ∈ seen
      · simp only [seenAfter, if_pos h, ih, List.map_cons, List.mem_cons]
        constructor
        · rintro (hs | hm)
          · exact Or.inl hs
          · exact Or.inr (Or.inr hm)
        · rintro (hs | hx | hm)
          · exact Or.inl hs
          · exact Or.inl (hx ▸ h)
          · exact Or.inr hm
      · simp only [seenAfter, if_neg h, ih, List.map_cons, List.mem_cons]
        tauto

theorem dedupByAux_append {α κ : Type} [DecidableEq κ] (k : α → κ) :
    ∀ (l₁ l₂ : List α) (seen : List κ),
      dedupByAux k seen (l₁ ++ l₂) =
        dedupByAux k seen l₁ ++ dedupByAux k (seenAfter k seen l₁) l₂ := by
  intro l₁
  induction l₁ with
  | nil => intro l₂ seen; simp [dedupByAux, seenAfter]
  | cons a rest ih =>
      intro l₂ seen
      by_cases h : k a ∈ seen
      · simp only [List.cons_append, dedupByAux, if_pos h, seenAfter, List.append_eq]
        rw [ih]
      · simp only [List.cons_append, dedupByAux, if_neg h, seenAfter, List.append_eq,
          List.cons_append]
        rw [ih]

theorem dedupByAux_congr {α κ : Type} [DecidableEq κ] (k : α → κ) :
    ∀ (l : List α) (s₁ s₂ : List κ), (∀ x, x ∈ s₁ ↔ x ∈ s₂) →
      dedupByAux k s₁ l = dedupByAux k s₂ l := by
  intro l
  induction l with
  | nil => intro s₁ s₂ _; rfl
  | cons a rest ih =>
      intro s₁ s₂ hs
      by_cases h : k a ∈ s₁
      · rw [dedupByAux, if_pos h, dedupByAux, if_pos ((hs (k a)).1 h), ih _ _ hs]
      · have h₂ : k a ∉ s₂ := fun hx => h ((hs (k a)).2 hx)
        rw [dedupByAux, if_neg h, dedupByAux, if_neg h₂]
        congr 1
        refine ih _ _ ?_
        intro x
        simp only [List.mem_cons]
        constructor
        · rintro (hx | hx)
          · exact Or.inl hx
          · exact Or.inr ((hs x).1 hx)
        · rintro (hx | hx)
          · exact Or.inl hx
          · exact Or.inr ((hs x).2 hx)

theorem dedupByAux_eq_nil {α κ : Type} [DecidableEq κ] (k : α → κ) :
    ∀ (l : List α) (seen : List κ), (∀ a ∈ l, k a ∈ seen) → dedupByAux k seen l = [] := by
  intro l
  induction l with
  | nil => intro seen _; rfl
  | cons a rest ih =>
      intro seen h
      rw [dedupByAux, if_pos (h a (List.mem_cons_self a rest))]
      exact ih seen fun b hb => h b (List.mem_cons_of_mem a hb)

theorem mem_of_mem_dedupByAux {α κ : Type} [DecidableEq κ] (k : α → κ) :
    ∀ (l : List α) (seen : List κ) (a : α),
      a ∈ dedupByAux k seen l → a ∈ l ∧ k a ∉ seen := by
  intro l
  induction l with
  | nil => intro seen a h; simp [dedupByAux] at h
  | cons b rest ih =>
      intro seen a h
      by_cases hb : k b ∈ seen
      · rw [dedupByAux, if_pos hb] at h
        obtain ⟨h₁, h₂⟩ := ih seen a h
        exact ⟨List.mem_cons_of_mem b h₁, h₂⟩
      · rw [dedupByAux, if_neg hb] at h
        rcases List.mem_cons.1 h with h | h
        · exact ⟨h ▸ List.mem_cons_self b rest, h ▸ hb⟩
        · obtain ⟨h₁, h₂⟩ := ih _ a h
          refine ⟨List.mem_cons_of_mem b h₁, fun hx => h₂ (List.mem_cons_of_mem _ hx)⟩

theorem dedupByAux_eq_self {α κ : Type} [DecidableEq κ] (k : α → κ) :
    ∀ (l : List α) (seen : List κ), (l.map k).Nodup → (∀ a ∈ l, k a ∉ seen) →
      dedupByAux k seen l = l := by
  intro l
  induction l with
  | nil => intro seen _ _; rfl
  | cons a rest ih =>
      intro seen hnd hdis
      have hnd' : k a ∉ rest.map k ∧ (rest.map k).Nodup := by
        rw [List.map_cons, List.nodup_cons] at hnd
        exact hnd
      rw [dedupByAux, if_neg (hdis a (List.mem_cons_self a rest))]
      congr 1
      refine ih _ hnd'.2 ?_
      intro b hb
      simp only [List.mem_cons, not_or]
      refine ⟨?_, hdis b (List.mem_cons_of_mem a hb)⟩
      intro hx
      exact hnd'.1 (hx ▸ List.mem_map_of_mem k hb)

theorem key_not_seen_of_mem_dedupByAux {α κ : Type} [DecidableEq κ] (k : α → κ)
    (l : List α) (seen : List κ) (a : α) (h : a ∈ dedupByAux k seen l) : k a ∉ seen :=
  (mem_of_mem_dedupByAux k l seen a h).2

theorem nodup_keys_dedupByAux {α κ : Type} [DecidableEq κ] (k : α → κ) :
    ∀ (l : List α) (seen : List κ), ((dedupByAux k seen l).map k).Nodup := by
  intro l
  induction l with
  | nil => intro seen; simp [dedupByAux]
  | cons a rest ih =>
      intro seen
      by_cases h : k a ∈ seen
      · rw [dedupByAux, if_pos h]; exact ih seen
      · rw [dedupByAux, if_neg h]
        simp only [List.map_cons, List.nodup_cons]
        refine ⟨?_, ih _⟩
        intro hx
        obtain ⟨b, hb, hkb⟩ := List.mem_map.1 hx
        have := key_not_seen_of_mem_dedupByAux k rest _ b hb
        exact this (hkb ▸ List.mem_cons_self _ _)

theorem dedupByAux_idem {α κ : Type} [DecidableEq κ] (k : α → κ)
    (l : List α) (seen : List κ) :
    dedupByAux k seen (dedupByAux k seen l) = dedupByAux k seen l := by
  refine dedupByAux_eq_self k _ seen (nodup_keys_dedupByAux k l seen) ?_
  intro a ha
  exact key_not_seen_of_mem_dedupByAux k l seen a ha

theorem length_dedupByAux {α κ : Type} [DecidableEq κ] (k : α → κ) :
    ∀ (l : List α) (seen : List κ),
      (dedupByAux k seen l).length = ((l.map k).toFinset \ seen.toFinset).card := by
  intro l
  induction l with
  | nil => intro seen; simp [dedupByAux]
  | cons a rest ih =>
      intro seen
      by_cases h : k a ∈ seen
      · rw [dedupByAux, if_pos h, ih]
        have : (k a) ∈ seen.toFinset := List.mem_toFinset.2 h
        simp [List.map_cons, List.toFinset_cons, Finset.insert_sdiff_of_mem _ this]
      · rw [dedupByAux, if_neg h]
        simp only [List.length_cons, ih, List.map_cons, List.toFinset_cons]
        have hins : (insert (k a) (rest.map k).toFinset) \ seen.toFinset =
            insert (k a) ((rest.map k).toFinset \ seen.toFinset) := by
          ext x
          simp only [Finset.mem_sdiff, Finset.mem_insert, List.mem_toFinset]
          constructor
          · rintro ⟨hx | hx, hns⟩
            · exact Or.inl hx
            · exact Or.inr ⟨hx, hns⟩
          · rintro (hx | ⟨hx, hns⟩)
            · exact ⟨Or.inl hx, fun hc => h (hx ▸ hc)⟩
            · exact ⟨Or.inr hx, hns⟩
        have hsub : (rest.map k).toFinset \ insert (k a) seen.toFinset =
            ((rest.map k).toFinset \ seen.toFinset).erase (k a) := by
          ext x
          simp only [Finset.mem_sdiff, Finset.mem_erase, Finset.mem_insert,
            List.mem_toFinset, not_or]
          tauto
        rw [hins, hsub]
        by_cases hmem : k a ∈ (rest.map k).toFinset \ seen.toFinset
        · rw [Finset.card_insert_of_mem hmem, Finset.card_erase_add_one hmem]
        · rw [Finset.card_insert_of_not_mem hmem, Finset.erase_eq_of_not_mem hmem]

theorem mem_keys_dedupByAux {α κ : Type} [DecidableEq κ] (k : α → κ) :
    ∀ (l : List α) (seen : List κ) (x : κ),
      x ∈ (dedupByAux k seen l).map k ↔ x ∈ l.map k ∧ x ∉ seen := by
  intro l
  induction l with
  | nil => intro seen x; simp [dedupByAux]
  | cons a rest ih =>
      intro seen x
      by_cases h : k a ∈ seen
      · rw [dedupByAux, if_pos h, ih]
        simp only [List.map_cons, List.mem_cons]
        constructor
        · rintro ⟨hm, hn⟩; exact ⟨Or.inr hm, hn⟩
        · rintro ⟨hm | hm, hn⟩
          · exact absurd (hm ▸ h) hn
          · exact ⟨hm, hn⟩
      · rw [dedupByAux, if_neg h]
        simp only [List.map_cons, List.mem_cons, ih, not_or]
        constructor
        · rintro (hx | ⟨hm, hne, hn⟩)
          · exact ⟨Or.inl hx, hx ▸ h⟩
          · exact ⟨Or.inr hm, hn⟩
        · rintro ⟨hx | hm, hn⟩
          · exact Or.inl hx
          · by_cases hxa : x = k a
            · exact Or.inl hxa
            · exact Or.inr ⟨hm, hxa, hn⟩

theorem dedupBy_eq_nil_iff {α κ : Type} [DecidableEq κ] (k : α → κ) (l : List α) :
    dedupBy k l = [] ↔ l = [] := by
  constructor
  · intro h
    cases l with
    | nil => rfl
    | cons a rest =>
        rw [dedupBy, dedupByAux, if_neg (List.not_mem_nil (k a))] at h
        exact absurd h (List.cons_ne_nil _ _)
  · intro h; subst h; rfl

/-- Re-merging a batch `b` that was already merged first changes nothing:
    `dedupBy k (b ++ dedupBy k (b ++ a)) = dedupBy k (b ++ a)`. -/
theorem dedupBy_remerge_left {α κ : Type} [DecidableEq κ] (k : α → κ) (b a : List α) :
    dedupBy k (b ++ dedupBy k (b ++ a)) = dedupBy k (b ++ a) := by
  unfold dedupBy
  rw [dedupByAux_append, dedupByAux_append k b a]
  rw [dedupByAux_append]
  have h₁ : dedupByAux k (seenAfter k [] b) (dedupByAux k [] b) = [] := by
    refine dedupByAux_eq_nil k _ _ ?_
    intro x hx
    have hxb : x ∈ b := (mem_of_mem_dedupByAux k b [] x hx).1
    exact (mem_seenAfter k (k x) b []).2 (Or.inr (List.mem_map_of_mem k hxb))
  rw [h₁]
  have h₂ : dedupByAux k (seenAfter k (seenAfter k [] b) (dedupByAux k [] b))
      (dedupByAux k (seenAfter k [] b) a) = dedupByAux k (seenAfter k [] b)
      (dedupByAux k (seenAfter k [] b) a) := by
    refine dedupByAux_congr k _ _ _ ?_
    intro x
    rw [mem_seenAfter]
    constructor
    · rintro (hx | hx)
      · exact hx
      · obtain ⟨y, hy, hky⟩ := List.mem_map.1 hx
        have hyb : y ∈ b := (mem_of_mem_dedupByAux k b [] y hy).1
        exact hky ▸ (mem_seenAfter k (k y) b []).2 (Or.inr (List.mem_map_of_mem k hyb))
    · intro hx; exact Or.inl hx
  rw [h₂, dedupByAux_idem, List.nil_append]

/-- Re-deduplicating after appending rows that are already covered by the
    first deduplication changes nothing:
    `dedupBy k (dedupBy k (a ++ b) ++ b) = dedupBy k (a ++ b)`. -/
theorem dedupBy_remerge_right {α κ : Type} [DecidableEq κ] (k : α → κ) (a b : List α) :
    dedupBy k (dedupBy k (a ++ b) ++ b) = dedupBy k (a ++ b) := by
  unfold dedupBy
  rw [dedupByAux_append]
  have h₁ : dedupByAux k [] (dedupByAux k [] (a ++ b)) = dedupByAux k [] (a ++ b) :=
    dedupByAux_idem k (a ++ b) []
  rw [h₁]
  have h₂ : dedupByAux k (seenAfter k [] (dedupByAux k [] (a ++ b))) b = [] := by
    refine dedupByAux_eq_nil k _ _ ?_
    intro x hx
    rw [mem_seenAfter]
    right
    rw [mem_keys_dedupByAux]
    refine ⟨?_, List.not_mem_nil _⟩
    rw [List.map_append]
    exact List.mem_append_right _ (List.mem_map_of_mem k hx)
  rw [h₂, List.append_nil]

theorem foldl_min_le_acc : ∀ (r : List MTrade) (acc : Nat),
    r.foldl (fun m x => min m x.date) acc ≤ acc := by
  intro r
  induction r with
  | nil => intro acc; exact le_refl acc
  | cons b rs ih =>
      intro acc
      simp only [List.foldl_cons]
      exact le_trans (ih (min acc b.date)) (min_le_left _ _)

theorem foldl_min_le_mem : ∀ (r : List MTrade) (acc : Nat), ∀ x ∈ r,
    r.foldl (fun m y => min m y.date) acc ≤ x.date := by
  intro r
  induction r with
  | nil => intro acc x hx; exact absurd hx (List.not_mem_nil x)
  | cons b rs ih =>
      intro acc x hx
      simp only [List.foldl_cons]
      rcases List.mem_cons.1 hx with hx | hx
      · subst hx
        exact le_trans (foldl_min_le_acc _ _) (min_le_right _ _)
      · exact ih (min acc b.date) x hx

theorem minTradeDate_le {l : List MTrade} {t : MTrade} (h : t ∈ l) :
    minTradeDate l ≤ t.date := by
  cases l with
  | nil => exact absurd h (List.not_mem_nil t)
  | cons a rest =>
      rw [minTradeDate]
      rcases List.mem_cons.1 h with h | h
      · exact h ▸ foldl_min_le_acc rest a.date
      · exact foldl_min_le_mem rest a.date t h

/-! ## Claim C1: idempotence of merging -/

/-- C1, counterexample: full-state idempotence `merge(merge(A,B),B) == merge(A,B)`
    fails, because `State.merge_with` concatenates the incoming corporate
    actions (and symbols) without deduplication: merging a ledger that
    carries one corporate action twice leaves two copies of that action. -/
theorem claim1_full_state_counterexample :
    (mergeWith (mergeWith exStateA exStateB true).1 exStateB true).1 ≠
      (mergeWith exStateA exStateB true).1 ∧
    (mergeWith (mergeWith exStateA exStateB true).1 exStateB true).1.actions.length = 2 ∧
    (mergeWith exStateA exStateB true).1.actions.length = 1 := by
  refine ⟨?_, by decide, by decide⟩
  intro h
  have := congrArg (fun s => s.actions.length) h
  simp only at this
  revert this
  decide

/-- C1, amended: the repeated merge of the same ledger leaves the
    hash-keyed trades table, the positions, imports, dividends and pairs
    unchanged and reports an importedCount of 0 (provided the incoming
    ledger's trades table has no duplicate hashes); only the corporate
    actions and symbols tables grow, being concatenated without
    deduplication. -/
theorem claim1_merge_idempotent_amended (A B : State)
    (hB : (B.trades.map MTrade.hash).Nodup) :
    (mergeWith (mergeWith A B true).1 B true).1.trades = (mergeWith A B true).1.trades ∧
    (mergeWith (mergeWith A B true).1 B true).1.positions = (mergeWith A B true).1.positions ∧
    (mergeWith (mergeWith A B true).1 B true).1.imports = (mergeWith A B true).1.imports ∧
    (mergeWith (mergeWith A B true).1 B true).1.dividends = (mergeWith A B true).1.dividends ∧
    (mergeWith (mergeWith A B true).1 B true).1.pairs = (mergeWith A B true).1.pairs ∧
    (mergeWith (mergeWith A B true).1 B true).2 = 0 := by
  have htr : merge_trades (some B.trades) (merge_trades (some B.trades) A.trades) =
      merge_trades (some B.trades) A.trades := by
    by_cases hA : A.trades.length = 0
    · have hinner : merge_trades (some B.trades) A.trades = B.trades := by
        rw [merge_trades, if_pos hA]
      rw [hinner]
      by_cases hBn : B.trades.length = 0
      · rw [merge_trades, if_pos hBn]
      · rw [merge_trades, if_neg hBn]
        unfold dedupBy
        rw [dedupByAux_append]
        rw [dedupByAux_eq_self MTrade.hash B.trades [] hB
          (fun a _ => List.not_mem_nil _)]
        have hnil : dedupByAux MTrade.hash (seenAfter MTrade.hash [] B.trades) B.trades = [] := by
          refine dedupByAux_eq_nil _ _ _ ?_
          intro a ha
          exact (mem_seenAfter MTrade.hash (a.hash) B.trades []).2
            (Or.inr (List.mem_map_of_mem _ ha))
        rw [hnil, List.append_nil]
    · have hinner : merge_trades (some B.trades) A.trades =
          dedupBy MTrade.hash (B.trades ++ A.trades) := by
        rw [merge_trades, if_neg hA]
      rw [hinner]
      by_cases hD : (dedupBy MTrade.hash (B.trades ++ A.trades)).length = 0
      · exfalso
        have hnil : dedupBy MTrade.hash (B.trades ++ A.trades) = [] := List.length_eq_zero.1 hD
        have hBA : B.trades ++ A.trades = [] := (dedupBy_eq_nil_iff _ _).1 hnil
        have hAnil : A.trades = [] := (List.append_eq_nil.1 hBA).2
        exact hA (by rw [hAnil]; rfl)
      · rw [merge_trades, if_neg hD]
        exact dedupBy_remerge_left MTrade.hash B.trades A.trades
  have hlen : (merge_trades (some B.trades) (merge_trades (some B.trades) A.trades)).length =
      (merge_trades (some B.trades) A.trades).length := by rw [htr]
  constructor
  · simpa only [mergeWith] using htr
  constructor
  · simp only [mergeWith]
    exact dedupBy_remerge_left _ B.positions A.positions
  constructor
  · simp only [mergeWith]
    exact dedupBy_remerge_right _ A.imports B.imports
  constructor
  · simp only [mergeWith]
    exact dedupBy_remerge_right _ A.dividends B.dividends
  constructor
  · simp only [mergeWith]
    rw [htr]
    simp
  · simp only [mergeWith]
    rw [htr]
    simp

/-- C1, witness for the amended theorem at concrete ledgers. -/
theorem claim1_amended_witness :
    (mergeWith (mergeWith exStateA exStateB true).1 exStateB true).2 = 0 :=
  (claim1_merge_idempotent_amended exStateA exStateB (by decide)).2.2.2.2.2

/-! ## Claim C2: which copy survives a hash collision -/

/-- C2, counterexample: merging incoming ledger B into existing ledger A
    does NOT retain A's copy of a trade whose hash is present in both.
    `State.merge_with` passes `other.trades` (the incoming B) as the first
    argument of `merge_trades`, and the first occurrence of each hash is
    the one kept — so B's copy survives and A's copy is dropped. -/
theorem claim2_existing_copy_counterexample :
    (mergeWith exCollideA exCollideB true).1.trades = [⟨1, 5, 99⟩] ∧
    (⟨1, 5, 10⟩ : MTrade) ∉ (mergeWith exCollideA exCollideB true).1.trades := by
  constructor
  · decide
  · decide

/-- C2, amended: on a hash collision it is the INCOMING ledger B's copy
    that the merged ledger retains (B's trades are placed first and an
    earlier occurrence is never overwritten); A's copy of a colliding hash
    survives only if it already appears in B. -/
theorem claim2_incoming_copy_wins (A B : State) (d : Bool)
    (hB : (B.trades.map MTrade.hash).Nodup) :
    (∀ t ∈ B.trades, t ∈ (mergeWith A B d).1.trades) ∧
    (∀ t ∈ A.trades, t.hash ∈ B.trades.map MTrade.hash →
      t ∈ (mergeWith A B d).1.trades → t ∈ B.trades) := by
  have hmr : (mergeWith A B d).1.trades = merge_trades (some B.trades) A.trades := by
    simp only [mergeWith]
  rw [hmr]
  by_cases hA : A.trades.length = 0
  · rw [merge_trades, if_pos hA]
    have hAnil : A.trades = [] := List.length_eq_zero.1 hA
    exact ⟨fun t ht => ht, fun t ht => absurd (hAnil ▸ ht) (List.not_mem_nil t)⟩
  · rw [merge_trades, if_neg hA]
    have hsplit : dedupBy MTrade.hash (B.trades ++ A.trades) =
        B.trades ++ dedupByAux MTrade.hash (seenAfter MTrade.hash [] B.trades) A.trades := by
      unfold dedupBy
      rw [dedupByAux_append,
        dedupByAux_eq_self MTrade.hash B.trades [] hB (fun a _ => List.not_mem_nil _)]
    rw [hsplit]
    constructor
    · intro t ht
      exact List.mem_append_left _ ht
    · intro t _ hhash hmem
      rcases List.mem_append.1 hmem with hmem | hmem
      · exact hmem
      · have := key_not_seen_of_mem_dedupByAux MTrade.hash A.trades _ t hmem
        rw [mem_seenAfter] at this
        exact absurd (Or.inr hhash) this

/-- C2, witness for the amended theorem at concrete ledgers. -/
theorem claim2_amended_witness :
    (⟨1, 5, 99⟩ : MTrade) ∈ (mergeWith exCollideA exCollideB true).1.trades :=
  (claim2_incoming_copy_wins exCollideA exCollideB true (by decide)).1
    ⟨1, 5, 99⟩ (by decide)

/-! ## Claim C8: importedCount and pair invalidation -/

/-- C8: `importedCount` equals the number of trade hashes of the incoming
    ledger B not already present in A, and whenever it is positive (under
    dedup-drop semantics), every Pair dated at or after any new trade's
    timestamp — in particular at or after the earliest one — is discarded
    from the pairings. -/
theorem claim8_imported_count_and_invalidation (A B : State)
    (hA : (A.trades.map MTrade.hash).Nodup) (hB : (B.trades.map MTrade.hash).Nodup) :
    (mergeWith A B true).2 =
      (((B.trades.map MTrade.hash).toFinset \ (A.trades.map MTrade.hash).toFinset).card : Int) ∧
    (0 < (mergeWith A B true).2 →
      ∀ p ∈ A.pairs, ∀ t ∈ B.trades, t.hash ∉ A.trades.map MTrade.hash →
        t.date ≤ p.date → p ∉ (mergeWith A B true).1.pairs) := by
  have hcount : (mergeWith A B true).2 =
      (((B.trades.map MTrade.hash).toFinset \ (A.trades.map MTrade.hash).toFinset).card : Int) := by
    simp only [mergeWith]
    by_cases hAz : A.trades.length = 0
    · have hAnil : A.trades = [] := List.length_eq_zero.1 hAz
      rw [merge_trades, if_pos hAz, hAnil]
      simp [List.toFinset_card_of_nodup hB]
    · rw [merge_trades, if_neg hAz]
      have hlen := length_dedupByAux MTrade.hash (B.trades ++ A.trades) []
      rw [dedupBy, hlen]
      have hmap : ((B.trades ++ A.trades).map MTrade.hash).toFinset =
          (B.trades.map MTrade.hash).toFinset ∪ (A.trades.map MTrade.hash).toFinset := by
        rw [List.map_append, List.toFinset_append]
      have hcard : ((B.trades.map MTrade.hash).toFinset ∪
            (A.trades.map MTrade.hash).toFinset).card =
          ((B.trades.map MTrade.hash).toFinset \ (A.trades.map MTrade.hash).toFinset).card +
            (A.trades.map MTrade.hash).toFinset.card :=
        (Finset.card_sdiff_add_card _ _).symm
      have hAcard : (A.trades.map MTrade.hash).toFinset.card = A.trades.length := by
        rw [List.toFinset_card_of_nodup hA, List.length_map]
      simp only [List.toFinset_nil, Finset.sdiff_empty] at hmap hcard ⊢
      rw [hmap, hcard, hAcard]
      push_cast
      ring
  refine ⟨hcount, ?_⟩
  intro hpos p hp t ht hnew hdate
  have hpairs : (mergeWith A B true).1.pairs =
      invalidate_pairs (minTradeDate B.trades) A.pairs := by
    simp only [mergeWith] at hpos ⊢
    rw [if_pos ⟨hpos, by trivial⟩]
  rw [hpairs]
  intro hmem
  rw [invalidate_pairs, List.mem_filter] at hmem
  have hlt : p.date < minTradeDate B.trades := of_decide_eq_true hmem.2
  have hle : minTradeDate B.trades ≤ t.date := minTradeDate_le ht
  omega

/-- C8, witness at concrete ledgers: one new hash is reported. -/
theorem claim8_witness :
    (mergeWith exStateA exStateB true).2 = 1 := by
  have h := (claim8_imported_count_and_invalidation exStateA exStateB
    (by decide) (by decide)).1
  rw [h]
  decide

/-! ## Lemmas on the split adjustment -/

theorem prefixRatio_append_self (pre : List ActionRow) (a : ActionRow) :
    prefixRatio (pre ++ [a]) a.symbol = prefixRatio pre a.symbol * a.ratio := by
  unfold prefixRatio
  rw [List.filter_append, List.foldl_append]
  have : List.filter (fun x => x.symbol == a.symbol) [a] = [a] := by
    simp [List.filter]
  rw [this]
  rfl

theorem prefixRatio_append_other (pre : List ActionRow) (a : ActionRow) (s : String)
    (h : s ≠ a.symbol) : prefixRatio (pre ++ [a]) s = prefixRatio pre s := by
  unfold prefixRatio
  rw [List.filter_append]
  have : List.filter (fun x => x.symbol == s) [a] = [] := by
    simp only [List.filter]
    have : (a.symbol == s) = false := by
      rw [beq_eq_false_iff_ne]
      exact fun hx => h hx.symm
    rw [this]
  rw [this, List.append_nil]

theorem lookupRatio_cons (s sym : String) (c : ℚ) (acc : List (String × ℚ)) :
    lookupRatio ((sym, c) :: acc) s = if sym = s then c else lookupRatio acc s := by
  unfold lookupRatio
  by_cases h : sym = s
  · simp [List.find?, h]
  · have : ((sym, c).1 == s) = false := by
      rw [beq_eq_false_iff_ne]
      exact h
    simp only [List.find?, this]
    rw [if_neg h]

theorem cumRatiosAux_eq_specCumsAux :
    ∀ (l : List ActionRow) (acc : List (String × ℚ)) (pre : List ActionRow),
      (∀ s, lookupRatio acc s = prefixRatio pre s) →
      cumRatiosAux acc l = specCumsAux pre l := by
  intro l
  induction l with
  | nil => intro acc pre _; rfl
  | cons a rest ih =>
      intro acc pre h
      rw [cumRatiosAux, specCumsAux]
      have hhead : lookupRatio acc a.symbol * a.ratio = prefixRatio (pre ++ [a]) a.symbol := by
        rw [prefixRatio_append_self, h a.symbol]
      rw [hhead]
      congr 1
      refine ih _ _ ?_
      intro s
      rw [lookupRatio_cons]
      by_cases hs : a.symbol = s
      · rw [if_pos hs, hs]
      · rw [if_neg hs, h s, prefixRatio_append_other]
        exact fun hx => hs hx.symm

theorem cumRatios_eq_specCums (l : List ActionRow) : cumRatios l = specCums l := by
  refine cumRatiosAux_eq_specCumsAux l [] [] ?_
  intro s
  rfl

theorem adjust_eq_spec_map (trades : List TradeRow) (acts : List ActionRow)
    (h : acts ≠ []) :
    adjust_for_splits trades (some acts) = trades.map (specAdjustRow acts) := by
  have hne : acts.isEmpty = false := by
    cases acts with
    | nil => exact absurd rfl h
    | cons a rest => rfl
  rw [adjust_for_splits, hne]
  simp only [Bool.false_eq_true, if_false]
  rw [add_split_data, hne]
  simp only [Bool.false_eq_true, if_false]
  by_cases hsp : (acts.filter fun a => a.action == "Split").isEmpty = true
  · have hnil : (acts.filter fun a => a.action == "Split") = [] := List.isEmpty_iff.1 hsp
    rw [if_pos hsp, List.map_map]
    refine List.map_congr_left ?_
    intro t _
    have hr : specSplitRatio acts t.symbol t.date = 1 := by
      rw [specSplitRatio, hnil]
      rfl
    simp [Function.comp, specAdjustRow, hr]
  · rw [if_neg hsp, List.map_map, List.map_map]
    refine List.map_congr_left ?_
    intro t _
    simp [Function.comp, specAdjustRow, specSplitRatio, cumRatios_eq_specCums]

theorem specAdjustRow_idem (acts : List ActionRow) (t : TradeRow) :
    specAdjustRow acts (specAdjustRow acts t) = specAdjustRow acts t := rfl

/-! ## Claim C3: the split-ratio formula and its idempotence -/

/-- C3, counterexample: with an EMPTY corporate-action set,
    `adjust_for_splits` returns the rows unchanged — the split ratio of a
    row that never had one populated stays NaN rather than becoming 1.0,
    and a stale `quantity` is not recomputed as `origQuantity * 1`. -/
theorem claim3_empty_actions_counterexample :
    adjust_for_splits [exStaleTrade] (some []) = [exStaleTrade] ∧
    exStaleTrade.splitRatio ≠ some 1 ∧
    exStaleTrade.quantity ≠ exStaleTrade.origQuantity * 1 := by
  refine ⟨rfl, by simp [exStaleTrade], by norm_num [exStaleTrade]⟩

/-- C3, amended: for every NONEMPTY action set, `adjust_for_splits` sets
    each trade's splitRatio to 1 divided by the minimum per-symbol running
    product of Split ratios (cumulated in ascending time order) among
    Split actions for the trade's symbol dated strictly after the trade's
    timestamp (1.0 when no later split exists), then sets
    `quantity = origQuantity * splitRatio` and
    `price = origPrice / splitRatio`; re-running it on the unchanged
    action set is the identity on the already-adjusted rows.  (With an
    empty or absent action set the rows are returned unchanged.) -/
theorem claim3_split_ratio_formula (trades : List TradeRow) (acts : List ActionRow)
    (h : acts ≠ []) :
    adjust_for_splits trades (some acts) = trades.map (specAdjustRow acts) ∧
    adjust_for_splits (adjust_for_splits trades (some acts)) (some acts) =
      adjust_for_splits trades (some acts) := by
  refine ⟨adjust_eq_spec_map trades acts h, ?_⟩
  rw [adjust_eq_spec_map _ acts h, adjust_eq_spec_map _ acts h, List.map_map]
  refine List.map_congr_left ?_
  intro t _
  exact specAdjustRow_idem acts t

/-- C3, witness at a concrete trade and a concrete split. -/
theorem claim3_witness :
    adjust_for_splits [exSplitTrade] (some [exActionOldNew]) =
      [exSplitTrade].map (specAdjustRow [exActionOldNew]) :=
  (claim3_split_ratio_formula [exSplitTrade] [exActionOldNew] (by decide)).1

/-! ## Claim C4: the 2-for-1 split round trip -/

/-- C4, counterexample: the parser maps the description 'Split 2 for 1' to
    the ratio old/new = 1/2, NOT to the new-for-old multiplier 2 the claim
    asserts; and a Split action actually carrying ratio 2 dated after a
    trade of quantity 10 leaves it with quantity 5 — the quantity is
    halved, not doubled. -/
theorem claim4_new_old_ratio_counterexample :
    parse_split_text "AAPL(US0378331005) Split 2 for 1" =
      ⟨some "Split", some "AAPL", some ((1 : ℚ)/2), none⟩ ∧
    ((1 : ℚ)/2) ≠ 2 ∧
    (adjust_for_splits [exSplitTrade] (some [exActionNewOld])).map TradeRow.quantity =
      [(5 : ℚ)] ∧
    (5 : ℚ) ≠ 2 * exSplitTrade.origQuantity := by
  refine ⟨by rfl, by norm_num, ?_, by norm_num [exSplitTrade]⟩
  simp [adjust_for_splits, add_split_data, exSplitTrade, exActionNewOld, sortByDate,
    insertByDate, cumRatios, cumRatiosAux, lookupRatio, minLaterCum, ratioOfMin,
    List.filter, List.min?]
  norm_num

/-- C4, amended: a 2-for-1 split is parsed from a 'Split 2 for 1'
    description with ratio old/new = 1/2; applying the split adjustment
    with such an action dated after a trade doubles that trade's quantity
    and halves its price, leaving quantity * price invariant. -/
theorem claim4_split_round_trip (trades : List TradeRow) (a : ActionRow) (t : TradeRow)
    (ha : a.action = "Split") (hr : a.ratio = 1/2) (ht : t ∈ trades)
    (hsym : t.symbol = a.symbol) (hdate : t.date < a.date) :
    parse_split_text "AAPL(US0378331005) Split 2 for 1" =
      ⟨some "Split", some "AAPL", some ((1 : ℚ)/2), none⟩ ∧
    ∃ t' ∈ adjust_for_splits trades (some [a]),
      t'.quantity = 2 * t.origQuantity ∧ t'.price = t.origPrice / 2 ∧
      t'.quantity * t'.price = t.origQuantity * t.origPrice := by
  refine ⟨by rfl, ?_⟩
  rw [adjust_eq_spec_map trades [a] (by simp)]
  refine ⟨specAdjustRow [a] t, List.mem_map_of_mem _ ht, ?_⟩
  have hfil : [a].filter (fun x => x.action == "Split") = [a] := by
    simp [List.filter, ha]
  have hratio : specSplitRatio [a] t.symbol t.date = 2 := by
    rw [specSplitRatio, hfil]
    show ratioOfMin (minLaterCum [(a, prefixRatio [a] a.symbol)] t.symbol t.date) = 2
    have hcond : (a.symbol == t.symbol && decide (t.date < a.date)) = true := by
      rw [Bool.and_eq_true, beq_iff_eq, decide_eq_true_eq]
      exact ⟨hsym.symm, hdate⟩
    rw [minLaterCum]
    simp only [List.filter, hcond, List.map, List.min?]
    have hpr : prefixRatio [a] a.symbol = 1 * a.ratio := by
      rw [prefixRatio]
      simp [List.filter]
    rw [ratioOfMin, hpr, hr]
    norm_num
  have hq : (specAdjustRow [a] t).quantity =
      t.origQuantity * specSplitRatio [a] t.symbol t.date := rfl
  have hp : (specAdjustRow [a] t).price =
      t.origPrice / specSplitRatio [a] t.symbol t.date := rfl
  rw [hq, hp, hratio]
  refine ⟨mul_comm _ _, rfl, by ring⟩

/-- C4, witness for the amended round trip at a concrete trade. -/
theorem claim4_witness :
    ∃ t' ∈ adjust_for_splits [exSplitTrade] (some [exActionOldNew]),
      t'.quantity = 2 * exSplitTrade.origQuantity ∧
      t'.price = exSplitTrade.origPrice / 2 ∧
      t'.quantity * t'.price = exSplitTrade.origQuantity * exSplitTrade.origPrice :=
  (claim4_split_round_trip [exSplitTrade] exActionOldNew exSplitTrade rfl rfl
    (by decide) rfl (by decide)).2

/-! ## Claim C7: the impossible-position query -/

/-- C7: the impossible-position query returns exactly the Close trades of
    Type Long with negative accumulated quantity or Type Short with
    positive accumulated quantity; on a fully covered sequence it is
    empty.  The query is a pure filter of the trades list (the model is a
    function; the input list is untouched). -/
theorem claim7_impossible_positions (trades : List PTrade) :
    (∀ t, t ∈ positions_with_missing_transactions trades ↔
      t ∈ trades ∧ t.action = "Close" ∧
        ((t.ttype = "Long" ∧ t.accumulatedQuantity < 0) ∨
         (t.ttype = "Short" ∧ t.accumulatedQuantity > 0))) ∧
    ((∀ t ∈ trades, ¬(t.action = "Close" ∧
        ((t.ttype = "Long" ∧ t.accumulatedQuantity < 0) ∨
         (t.ttype = "Short" ∧ t.accumulatedQuantity > 0)))) →
      positions_with_missing_transactions trades = []) := by
  have hmem : ∀ t, t ∈ positions_with_missing_transactions trades ↔
      t ∈ trades ∧ t.action = "Close" ∧
        ((t.ttype = "Long" ∧ t.accumulatedQuantity < 0) ∨
         (t.ttype = "Short" ∧ t.accumulatedQuantity > 0)) := by
    intro t
    simp only [positions_with_missing_transactions, List.mem_filter, Bool.or_eq_true,
      Bool.and_eq_true, decide_eq_true_eq, beq_iff_eq]
    tauto
  refine ⟨hmem, ?_⟩
  intro hnone
  refine List.eq_nil_iff_forall_not_mem.2 ?_
  intro t ht
  obtain ⟨htr, hprop⟩ := (hmem t).1 ht
  exact hnone t htr hprop

/-- C7, witness: a Close/Long trade with negative accumulated quantity
    appears in the query result. -/
theorem claim7_witness :
    exImpossible ∈ positions_with_missing_transactions [exImpossible] :=
  ((claim7_impossible_positions [exImpossible]).1 exImpossible).2
    ⟨List.mem_cons_self _ _, rfl, Or.inl ⟨rfl, by norm_num [exImpossible]⟩⟩

/-! ## Claim C10: the unmatched-transfer query -/

theorem transfersOf_filter (trades : List XferRow) :
    transfersOf (trades.filter fun r => !(r.action == "Transfer" && r.ttype == "Spinoff")) =
      transfersOf trades := by
  unfold transfersOf
  rw [List.filter_filter]
  refine List.filter_congr ?_
  intro a _
  cases ha : (a.action == "Transfer") <;> cases hs : (a.ttype == "Spinoff") <;> simp [ha, hs]

/-- C10: on a trades table with no Target column the query returns a
    single empty result (`none`, modelling the empty DataFrame); with a
    Target column it returns two result sets whose unmatched-incoming
    residuals are strictly positive and unmatched-outgoing residuals
    strictly negative; and Transfer rows of Type 'Spinoff' are excluded
    from the matching (removing them does not change the result). -/
theorem claim10_unmatched_transfers (trades : List XferRow) :
    transfers_with_missing_transactions false trades = none ∧
    (∀ res, transfers_with_missing_transactions true trades = some res →
      (∀ kv ∈ res.1, 0 < kv.2) ∧ (∀ kv ∈ res.2, kv.2 < 0)) ∧
    transfers_with_missing_transactions true
        (trades.filter fun r => !(r.action == "Transfer" && r.ttype == "Spinoff")) =
      transfers_with_missing_transactions true trades := by
  refine ⟨rfl, ?_, ?_⟩
  · intro res h
    simp only [transfers_with_missing_transactions, if_true, Option.some.injEq] at h
    subst h
    constructor
    · intro kv hkv
      rw [List.mem_filter] at hkv
      exact of_decide_eq_true hkv.2
    · intro kv hkv
      rw [List.mem_filter] at hkv
      exact of_decide_eq_true hkv.2
  · simp only [transfers_with_missing_transactions]
    rw [transfersOf_filter]

/-- C10, witness: a lone outgoing transfer shows up as a strictly
    negative unmatched-outgoing residual. -/
theorem claim10_witness : (-5 : ℚ) < 0 := by
  have h : transfers_with_missing_transactions true [exLoneOutgoing] =
      some ([], [(("AAPL", "U2"), (-5 : ℚ))]) := by
    simp [transfers_with_missing_transactions, transfersOf, exLoneOutgoing, groupSum,
      List.filter, addToGroup, addSeries, lookupSeries, containsKey,
      show (("Transfer" : String) == "Transfer") = true from by decide,
      show (("Out" : String) == "Spinoff") = false from by decide,
      show (("Out" : String) == "Out") = true from by decide,
      show (("Out" : String) == "In") = false from by decide,
      show (decide ((-5 : ℚ) < 0)) = true from by decide,
      show (decide ((0 : ℚ) < -5)) = false from by decide,
      show (decide ((5 : ℚ) < 0)) = false from by decide]
  have := ((claim10_unmatched_transfers [exLoneOutgoing]).2.1 _ h).2
    (("AAPL", "U2"), (-5 : ℚ)) (List.mem_singleton.2 rfl)
  exact this

/-! ## Lemmas on insertion sorting -/

theorem mem_insertBy {α : Type} (le : α → α → Bool) (a x : α) :
    ∀ l, x ∈ insertBy le a l ↔ x = a ∨ x ∈ l := by
  intro l
  induction l with
  | nil => simp [insertBy]
  | cons b rest ih =>
      by_cases h : le a b = true
      · rw [insertBy, if_pos h]
        simp [List.mem_cons]
      · rw [insertBy, if_neg h]
        simp only [List.mem_cons, ih]
        tauto

theorem mem_sortBy {α : Type} (le : α → α → Bool) (x : α) :
    ∀ l, x ∈ sortBy le l ↔ x ∈ l := by
  intro l
  induction l with
  | nil => simp [sortBy]
  | cons a rest ih =>
      rw [sortBy, mem_insertBy]
      simp [ih, List.mem_cons]

theorem sortBy_ne_nil {α : Type} (le : α → α → Bool) (l : List α) (h : sortBy le l = []) :
    l = [] := by
  cases l with
  | nil => rfl
  | cons a rest =>
      exfalso
      have ha : a ∈ sortBy le (a :: rest) := (mem_sortBy le a _).2 (List.mem_cons_self a rest)
      rw [h] at ha
      exact List.not_mem_nil a ha

theorem sortBy_head_le {α : Type} (le : α → α → Bool)
    (htot : ∀ a b, le a b = true ∨ le b a = true)
    (htr : ∀ a b c, le a b = true → le b c = true → le a c = true) :
    ∀ (l : List α) (x : α) (xs : List α), sortBy le l = x :: xs → ∀ y ∈ l, le x y = true := by
  have hrefl : ∀ z : α, le z z = true := fun z => (htot z z).elim id id
  intro l
  induction l with
  | nil =>
      intro x xs h
      exact absurd h (by simp [sortBy])
  | cons a rest ih =>
      intro x xs h y hy
      rw [sortBy] at h
      rcases hs : sortBy le rest with _ | ⟨b, bs⟩
      · rw [hs, insertBy] at h
        injection h with h1 _
        subst h1
        rcases List.mem_cons.1 hy with hy | hy
        · subst hy
          exact hrefl y
        · rw [sortBy_ne_nil le rest hs] at hy
          exact absurd hy (List.not_mem_nil y)
      · rw [hs, insertBy] at h
        by_cases hab : le a b = true
        · rw [if_pos hab] at h
          injection h with h1 _
          subst h1
          rcases List.mem_cons.1 hy with hy | hy
          · subst hy
            exact hrefl y
          · exact htr a b y hab (ih b bs hs y hy)
        · rw [if_neg hab] at h
          injection h with h1 _
          subst h1
          rcases List.mem_cons.1 hy with hy | hy
          · subst hy
            rcases htot y b with hx | hx
            · exact absurd hx hab
            · exact hx
          · exact ih b bs hs y hy

theorem mem_dedupByAux_id {α : Type} [DecidableEq α] :
    ∀ (l : List α) (seen : List α) (a : α), a ∈ l → a ∉ seen → a ∈ dedupByAux id seen l := by
  intro l
  induction l with
  | nil => intro seen a h _; exact absurd h (List.not_mem_nil a)
  | cons b rest ih =>
      intro seen a h hns
      by_cases hb : (id b) ∈ seen
      · rw [dedupByAux, if_pos hb]
        rcases List.mem_cons.1 h with h | h
        · exact absurd (h ▸ hb) hns
        · exact ih seen a h hns
      · rw [dedupByAux, if_neg hb]
        rcases List.mem_cons.1 h with h | h
        · exact h ▸ List.mem_cons_self b _
        · by_cases hab : a = b
          · exact hab ▸ List.mem_cons_self b _
          · refine List.mem_cons_of_mem b (ih _ a h ?_)
            simp only [List.mem_cons, not_or, id]
            exact ⟨hab, hns⟩

theorem mem_dedupBy_id {α : Type} [DecidableEq α] (l : List α) (a : α) (h : a ∈ l) :
    a ∈ dedupBy id l :=
  mem_dedupByAux_id l [] a h (List.not_mem_nil a)

theorem keyLE_total (a b : Option Nat) : keyLE a b = true ∨ keyLE b a = true := by
  cases a <;> cases b <;> simp [keyLE] <;> omega

theorem keyLE_trans (a b c : Option Nat) (h1 : keyLE a b = true) (h2 : keyLE b c = true) :
    keyLE a c = true := by
  cases a <;> cases b <;> cases c <;> simp_all [keyLE] <;> omega

theorem key_survivor_dedupBy {α κ : Type} [DecidableEq κ] (k : α → κ) (l : List α) (a : α)
    (h : a ∈ l) : ∃ b, b ∈ dedupBy k l ∧ b ∈ l ∧ k b = k a := by
  have hkey : k a ∈ (dedupByAux k [] l).map k := by
    rw [mem_keys_dedupByAux]
    exact ⟨List.mem_map_of_mem k h, List.not_mem_nil _⟩
  obtain ⟨b, hb, hkb⟩ := List.mem_map.1 hkey
  exact ⟨b, hb, (mem_of_mem_dedupByAux k l [] b hb).1, hkb⟩

/-! ## Claim C5: rename resolution and manual precedence -/

/-- C5: when rename resolution succeeds for a raw symbol `s` dated `d`,
    the resulting ticker is the `Ticker` of a SymbolRename entry keyed `s`
    whose change date is null or ≥ `d`, minimal under the
    nulls-last-by-change-date order among all such entries; every
    non-manual trade row is renamed through this resolution by
    `apply_renames`; and a manual symbol entry is never superseded by an
    auto-detected rename-history row in the table update of
    `detect_and_apply_renames`: its column values always remain in the
    updated table, carried by a manual row of the original symbols table
    — never by one of the auto-detected rows, which are appended after
    the kept rows and flagged non-manual in the compared columns.
    (Because `drop_duplicates` keys on the columns only, a manual row can
    be merged with an identical-columns manual row of another raw
    symbol; what it can never be is evicted by an auto-detected row.) -/
theorem claim5_rename_resolution (symbols renames : List SymbolRow) (trades : List RTrade) :
    (∀ s d tk, resolveTicker symbols s d = some tk →
      ∃ e, e ∈ symbols ∧ e.symbol = s ∧
        (e.changeDate = none ∨ ∃ cd, e.changeDate = some cd ∧ d ≤ cd) ∧
        e.ticker = tk ∧
        ∀ e' ∈ symbols, e'.symbol = s →
          (e'.changeDate = none ∨ ∃ cd, e'.changeDate = some cd ∧ d ≤ cd) →
          keyLE e.changeDate e'.changeDate = true) ∧
    (∀ t ∈ trades, t.manual = false →
      { t with ticker := resolveTicker symbols t.symbol t.date } ∈
        apply_renames_trades symbols trades) ∧
    (∀ r ∈ symbols, r.manual = true →
      ∃ k, k ∈ update_symbols symbols renames ∧ k ∈ symbols ∧ k.manual = true ∧
        symCols k = symCols r) := by
  refine ⟨?_, ?_, ?_⟩
  · intro s d tk h
    rw [resolveTicker] at h
    rcases hs : sortBy (fun a b => keyLE a.changeDate b.changeDate)
        (renameCandidates symbols s d) with _ | ⟨e, es⟩
    · rw [hs] at h
      exact absurd h (by simp)
    · rw [hs] at h
      have htk : e.ticker = tk := Option.some.inj h
      have hmemcand : e ∈ renameCandidates symbols s d :=
        (mem_sortBy _ e _).1 (hs ▸ List.mem_cons_self e es)
      rw [renameCandidates, List.mem_filter] at hmemcand
      obtain ⟨hin, hpred⟩ := hmemcand
      rw [Bool.and_eq_true, beq_iff_eq] at hpred
      refine ⟨e, hin, hpred.1, ?_, htk, ?_⟩
      · rcases hcd : e.changeDate with _ | cd
        · exact Or.inl rfl
        · right
          refine ⟨cd, rfl, ?_⟩
          have hp := hpred.2
          rw [hcd] at hp
          exact of_decide_eq_true hp
      · intro e' he' hsym' hcond'
        have hmem' : e' ∈ renameCandidates symbols s d := by
          rw [renameCandidates, List.mem_filter]
          refine ⟨he', ?_⟩
          rw [Bool.and_eq_true, beq_iff_eq]
          refine ⟨hsym', ?_⟩
          rcases hcond' with hnone | ⟨cd, hcd, hle⟩
          · rw [hnone]
          · rw [hcd]
            exact decide_eq_true hle
        exact sortBy_head_le _ (fun a b => keyLE_total a.changeDate b.changeDate)
          (fun a b c => keyLE_trans a.changeDate b.changeDate c.changeDate)
          _ e es hs e' hmem'
  · intro t ht hman
    rw [apply_renames_trades]
    refine List.mem_append_left _ ?_
    rw [rename_symbols]
    refine List.mem_map_of_mem _ ?_
    rw [List.mem_filter]
    exact ⟨ht, by rw [hman]; rfl⟩
  · intro r hr hman
    have hkept : r ∈ symbols.filter fun x => x.changeDate.isNone || x.manual := by
      rw [List.mem_filter]
      exact ⟨hr, by rw [hman, Bool.or_true]⟩
    obtain ⟨b, hbd, hbl, hbk⟩ := key_survivor_dedupBy symCols
      ((symbols.filter fun x => x.changeDate.isNone || x.manual) ++
        ((renames.filter fun x => symbols.any fun s => s.symbol == x.symbol).map fun x =>
          { x with manual := false, currency := currencyLookup (symbols.filter fun y => y.changeDate.isNone || y.manual) x.symbol })) r
      (List.mem_append_left _ hkept)
    have hbman : b.manual = true := by
      have hcomp := congrArg (fun p => p.2.2.2) hbk
      simp only [symCols] at hcomp
      exact hcomp.trans hman
    have hbin : b ∈ symbols := by
      rcases List.mem_append.1 hbl with hb | hb
      · exact (List.mem_filter.1 hb).1
      · exfalso
        obtain ⟨x, _, hmx⟩ := List.mem_map.1 hb
        have hf : b.manual = false := by rw [← hmx]
        rw [hf] at hbman
        exact Bool.false_ne_true hbman
    refine ⟨b, ?_, hbin, hbman, hbk⟩
    exact (mem_sortBy symLE b _).2 hbd

/-- C5, witness: a trade dated 50 under raw symbol FB resolves to META
    (change date 100 sorts before the null-dated original entry), with
    the chosen entry minimal among the matching ones; and a manual
    symbol entry's column values survive the auto-rename table update on
    a manual row of the original table. -/
theorem claim5_witness :
    (∃ e, e ∈ [exRenameNew, exRenameOld] ∧ e.symbol = "FB" ∧
      (e.changeDate = none ∨ ∃ cd, e.changeDate = some cd ∧ 50 ≤ cd) ∧
      e.ticker = "META" ∧
      ∀ e' ∈ [exRenameNew, exRenameOld], e'.symbol = "FB" →
        (e'.changeDate = none ∨ ∃ cd, e'.changeDate = some cd ∧ 50 ≤ cd) →
        keyLE e.changeDate e'.changeDate = true) ∧
    (∃ k, k ∈ update_symbols [exManualSym] [exRenameNew] ∧ k ∈ [exManualSym] ∧
      k.manual = true ∧ symCols k = symCols exManualSym) :=
  ⟨((claim5_rename_resolution [exRenameNew, exRenameOld] [] []).1 "FB" 50 "META" (by decide)),
   ((claim5_rename_resolution [exManualSym] [exRenameNew] []).2.2 exManualSym
     (List.mem_cons_self _ _) rfl)⟩

/-! ## Lemmas on numeric coercion, and claim C9 -/

theorem takeRun_cons (p : Char → Bool) (c : Char) (cs : List Char) :
    takeRun p (c :: cs) =
      if p c then (c :: (takeRun p cs).1, (takeRun p cs).2) else ([], c :: cs) := by
  rw [takeRun]

theorem fracOk_takeRun (cs : List Char) :
    fracOk (takeRun Char.isDigit cs).2 = numTail cs := by
  induction cs with
  | nil => rfl
  | cons c rest ih =>
      rw [takeRun_cons]
      by_cases hc : Char.isDigit c = true
      · have hdot : (c == '.') = false := by
          rcases hd : (c == '.') with _ | _
          · rfl
          · exfalso
            have : c = '.' := beq_iff_eq.1 hd
            rw [this] at hc
            exact absurd hc (by decide)
        rw [if_pos hc]
        show fracOk (takeRun Char.isDigit rest).2 = numTail (c :: rest)
        rw [ih, numTail, hdot]
        simp [hc]
      · rw [if_neg hc]
        show fracOk (c :: rest) = numTail (c :: rest)
        rw [fracOk, numTail]
        by_cases hdot : (c == '.') = true
        · rw [hdot, if_pos rfl]
          simp
        · have hdf : (c == '.') = false := by
            rcases hd : (c == '.') with _ | _
            · rfl
            · exact absurd hd hdot
          have hcf : Char.isDigit c = false := by
            rcases hd : Char.isDigit c with _ | _
            · rfl
            · exact absurd hd hc
          rw [hdf]
          simp [hcf]

theorem parseUnsigned_isSome (cs : List Char) : (parseUnsigned cs).isSome = numCore cs := by
  cases cs with
  | nil => rfl
  | cons c rest =>
      rw [numCore]
      by_cases hc : Char.isDigit c = true
      · have h1 : (takeRun Char.isDigit (c :: rest)).1 = c :: (takeRun Char.isDigit rest).1 := by
          rw [takeRun_cons, if_pos hc]
        have h2 : (takeRun Char.isDigit (c :: rest)).2 = (takeRun Char.isDigit rest).2 := by
          rw [takeRun_cons, if_pos hc]
        have hfrac := fracOk_takeRun rest
        simp only [parseUnsigned, h1, h2, List.isEmpty_cons, Bool.false_eq_true, if_false,
          hc, Bool.true_and]
        rcases hr : (takeRun Char.isDigit rest).2 with _ | ⟨d, fp⟩
        · rw [hr] at hfrac
          simp only [Option.isSome_some]
          exact hfrac.symm ▸ rfl
        · rw [hr] at hfrac
          rw [fracOk] at hfrac
          rw [← hfrac]
          by_cases hcond : (d == '.' && !fp.isEmpty && fp.all Char.isDigit) = true
          · simp [hcond]
          · simp [hcond]
      · have hcf : Char.isDigit c = false := by
          rcases hd : Char.isDigit c with _ | _
          · rfl
          · exact absurd hd hc
        have h1 : (takeRun Char.isDigit (c :: rest)).1 = [] := by
          rw [takeRun_cons, hcf]
          rfl
        simp only [parseUnsigned, h1, List.isEmpty_nil, if_true, Option.isSome_none, hcf,
          Bool.false_and]

theorem parseNum_none_of_invalid (s : String) (h : isNumericLit s = false) :
    parseNum s = none := by
  rw [isNumericLit] at h
  rw [parseNum]
  rcases hl : s.toList with _ | ⟨c, rest⟩
  · rfl
  · rw [hl] at h
    replace h : (if (c == '-') = true then numCore rest else numCore (c :: rest)) = false := h
    show (if (c == '-') = true then (parseUnsigned rest).map (fun q => -q)
        else parseUnsigned (c :: rest)) = none
    by_cases hm : (c == '-') = true
    · rw [if_pos hm] at h ⊢
      have hsm := parseUnsigned_isSome rest
      rw [h] at hsm
      rcases hp : parseUnsigned rest with _ | v
      · rfl
      · rw [hp] at hsm
        exact absurd hsm (by simp)
    · rw [if_neg hm] at h ⊢
      have hsm := parseUnsigned_isSome (c :: rest)
      rw [h] at hsm
      rcases hp : parseUnsigned (c :: rest) with _ | v
      · rfl
      · rw [hp] at hsm
        exact absurd hsm (by simp)

/-! ## Claim C9: coercion and parsing degrade instead of failing -/

/-- C9: a numeric field whose string is not a parsable decimal is coerced
    to the missing-value marker `none` by `convert_trade_columns` (a
    total function — no row ever fails), and a corporate-action
    description matched by none of the Split / Spinoff / Acquisition
    patterns and containing no 'Dividend' text parses to the action
    'Unknown' rather than raising. -/
theorem claim9_degrade_not_fail (r : RawTradeRow) (text : String) :
    (isNumericLit r.quantity = false → (convert_trade_columns r).quantity = none) ∧
    (isNumericLit r.tPrice = false → (convert_trade_columns r).tPrice = none) ∧
    ((parse_split_text text).action = none → (parse_spinoff_text text).action = none →
      (parse_acquisition_text text).action = none →
      containsSub ("Dividend".toList) text.toList = false →
      (parse_action_text text).action = some "Unknown") := by
  refine ⟨?_, ?_, ?_⟩
  · intro h
    exact parseNum_none_of_invalid _ h
  · intro h
    exact parseNum_none_of_invalid _ h
  · intro h1 h2 h3 h4
    rw [parse_action_text]
    rcases hp1 : parse_split_text text with ⟨a1, s1, r1, t1⟩
    rw [hp1] at h1
    simp only at h1
    subst h1
    rcases hp2 : parse_spinoff_text text with ⟨a2, s2, r2, t2⟩
    rw [hp2] at h2
    simp only at h2
    subst h2
    rcases hp3 : parse_acquisition_text text with ⟨a3, s3, r3, t3⟩
    rw [hp3] at h3
    simp only at h3
    subst h3
    rcases hms : matchSymCode text.toList with _ | sym
    · have h4x : containsSub ['D', 'i', 'v', 'i', 'd', 'e', 'n', 'd'] text.data = false := h4
      simp [h4x, h4]
    · rfl

/-- C9, witness: a row of unparsable numeric text is coerced to missing
    values, and an unrecognized description parses to 'Unknown'. -/
theorem claim9_witness :
    (convert_trade_columns exBadRow).quantity = none ∧
    (parse_action_text "hello world").action = some "Unknown" :=
  ⟨(claim9_degrade_not_fail exBadRow "hello world").1 (by rfl),
   (claim9_degrade_not_fail exBadRow "hello world").2.2 (by rfl) (by rfl) (by rfl) (by rfl)⟩

/-! ## Claim C6: conservation of the lot matcher -/

theorem matchCloseLoop_conserve (pick : List Lot → Option Nat) :
    ∀ (fuel : Nat) (lots : List Lot) (q : ℚ) (c : CloseLike), 0 ≤ q →
      pairSum (matchCloseLoop pick fuel lots q c).1 =
        q - (matchCloseLoop pick fuel lots q c).2.2 ∧
      0 ≤ (matchCloseLoop pick fuel lots q c).2.2 ∧
      (matchCloseLoop pick fuel lots q c).2.1.length = lots.length := by
  intro fuel
  induction fuel with
  | zero =>
      intro lots q c hq
      exact ⟨by simp [matchCloseLoop, pairSum], hq, rfl⟩
  | succ fuel ih =>
      intro lots q c hq
      rw [matchCloseLoop]
      split
      · exact ⟨by simp [pairSum], hq, rfl⟩
      · split
        · exact ⟨by simp [pairSum], hq, rfl⟩
        · rename_i hq0 x i lot hpl
          split
          · exact ⟨by simp [pairSum], hq, rfl⟩
          · rename_i hrem
            dsimp only
            have hmq : min q lot.remaining ≤ q := min_le_left _ _
            have hq' : 0 ≤ q - min q lot.remaining := by linarith
            obtain ⟨hsum, hunc, hlen⟩ := ih
              (lots.set i { lot with remaining := lot.remaining - min q lot.remaining })
              (q - min q lot.remaining) c hq'
            refine ⟨?_, hunc, ?_⟩
            · rw [pairSum] at hsum ⊢
              simp only [List.map_cons, List.sum_cons]
              rw [hsum]
              ring
            · rw [hlen, List.length_set]

/-- C6: for every Close trade, the sum of matchedQuantity over the Pairs
    the matching loop produces for it is at most `abs(quantity)`, with
    equality exactly when the uncovered residual is 0; and the working
    set keeps its size — no synthetic lot is fabricated when the lots are
    exhausted, the residual is simply reported as uncovered. -/
theorem claim6_close_conservation (pick : List Lot → Option Nat) (lots : List Lot)
    (c : CloseLike) :
    pairSum (matchCloseTrade pick lots c).1 ≤ |c.quantity| ∧
    (pairSum (matchCloseTrade pick lots c).1 = |c.quantity| ↔
      (matchCloseTrade pick lots c).2.2 = 0) ∧
    (matchCloseTrade pick lots c).2.1.length = lots.length := by
  obtain ⟨hsum, hunc, hlen⟩ :=
    matchCloseLoop_conserve pick lots.length lots |c.quantity| c (abs_nonneg _)
  rw [matchCloseTrade]
  refine ⟨by linarith, ?_, hlen⟩
  constructor
  · intro he
    linarith
  · intro he
    rw [he] at hsum
    linarith

end InvestTax
